import Mathlib

namespace TsCsp

/-!
Verification of the ts-csp library (Go-style channels and `select` for
TypeScript) against its natural-language specification.

The development shallowly embeds the relevant parts of the source:

* `src/src/_shuffle.ts` — the Fisher-Yates `shuffle` and its `randomInt`
  helper (section 1);
* `src/select.ts` (the first file of `src/unnamed/part_004`) — the `select`
  coordinator loop, `waitForOp` and `SelectError` (sections 2 and 3);
* the `Channel` state machine and the abortable-future helper
  `makeAbortablePromise`, whose implementations are not part of the source
  tree; these are modelled from the specification (sections 4 and 5), and
* `sleep` from `src/src/select-helpers.ts` (section 5).

Machine integers do not occur: JavaScript array indices are embedded as `ℕ`
and `Math.random()` results as `ℚ` values in `[0, 1)`.
-/

/-! ### Section 1: Fisher-Yates shuffle (`src/src/_shuffle.ts`)

The source operates on a mutable JS array.  We embed an array of length `n`
as a function `Fin n → α`, a single `a[i] = a[j]` swap round as `swapIdx`,
and the loop as structural recursion on the number of loop iterations
performed.
-/

/-- Embedding of `randomInt(minInclusive, maxExclusive)` from `_shuffle.ts` lines 19-22:
`Math.floor(Math.random() * (maxExclusive - minInclusive) + minInclusive)`,
with the `Math.random()` result embedded as a rational `r`. -/
def randomInt (r : ℚ) (minInclusive maxExclusive : ℤ) : ℤ :=
  ⌊r * ((maxExclusive : ℚ) - (minInclusive : ℚ)) + (minInclusive : ℚ)⌋

/-- The three-assignment swap of `_shuffle.ts` lines 13-15:
`const ofI = array[i]; array[i] = array[j]; array[j] = ofI`. -/
def swapIdx {n : ℕ} {α : Type*} (a : Fin n → α) (i j : Fin n) : Fin n → α :=
  fun k => if k = i then a j else if k = j then a i else a k

/-- The tuple of drawn indices consumed by the shuffle loop: for each
position `i` a drawn index `j ≤ i`.  The component at `i = 0` lives in the
singleton `Fin 1` (the source loop starts at `i = 1`, see `shuffleAux`), so
this type is in bijection with the tuples `(j_1, …, j_(n-1))` of the
specification. -/
abbrev FYDraws (n : ℕ) := ∀ i : Fin n, Fin (i.val + 1)

/-- Intermediate state `shuffleAux a d k`: the array after the first `k` iterations of the
loop of `_shuffle.ts` lines 9-16, where iteration `i` swaps `array[i]` and
`array[j]` for the drawn index `j = d i ≤ i`.  The source loop runs
`i = 1 .. n-1`; the extra `i = 0` iteration performed here swaps index `0`
with the only element of `Fin 1`, i.e. with itself, and is provably the
identity (`shuffleAux_one` below), so the two loops agree. -/
def shuffleAux {n : ℕ} {α : Type*} (a : Fin n → α) (d : FYDraws n) : ℕ → (Fin n → α)
  | 0 => a
  | k + 1 =>
    if h : k < n then
      swapIdx (shuffleAux a d k) ⟨k, h⟩ (Fin.castLE h (d ⟨k, h⟩))
    else
      shuffleAux a d k

/-- Embedding of `shuffle(array)` from `_shuffle.ts` lines 8-17, with the drawn indices
supplied explicitly: run every iteration of the loop. -/
def shuffleWith {n : ℕ} {α : Type*} (a : Fin n → α) (d : FYDraws n) : Fin n → α :=
  shuffleAux a d n

/-- The swap performed by loop iteration `k`, as a permutation of positions
(the guard is vacuous for the `k < n` used by the loop). -/
def fySwap {n : ℕ} (d : FYDraws n) (k : ℕ) : Equiv.Perm (Fin n) :=
  if h : k < n then Equiv.swap ⟨k, h⟩ (Fin.castLE h (d ⟨k, h⟩)) else 1

/-- The position permutation realised by the first `k` loop iterations. -/
def fyPermAux {n : ℕ} (d : FYDraws n) : ℕ → Equiv.Perm (Fin n)
  | 0 => 1
  | k + 1 => fyPermAux d k * fySwap d k

/-- The position permutation realised by the whole shuffle loop. -/
def fyPerm (n : ℕ) (d : FYDraws n) : Equiv.Perm (Fin n) :=
  fyPermAux d n

/-- The draw tuple produced by a stream `rs` of `Math.random()` results:
component `i` is `randomInt(0, i + 1)` applied to `rs i`.  The `min _ i`
clamp only totalises the embedding for out-of-range streams; for
`rs i ∈ [0, 1)` it never engages (`toDraws_val` below), matching the
unchecked JS array indexing of the source. -/
def toDraws (n : ℕ) (rs : ℕ → ℚ) : FYDraws n :=
  fun i => ⟨min (randomInt (rs i.val) 0 ((i.val : ℤ) + 1)).toNat i.val,
    Nat.lt_succ_iff.mpr (min_le_right _ _)⟩

/-- Embedding of `shuffle(array)` from `_shuffle.ts`, driven by a stream `rs` of
`Math.random()` results. -/
def shuffleRand {n : ℕ} {α : Type*} (a : Fin n → α) (rs : ℕ → ℚ) : Fin n → α :=
  shuffleWith a (toDraws n rs)

/-! ### Section 2: the select coordinator (`src/select.ts` lines 161-287)

The coordinator is embedded as a fuel-indexed transition system.  A run is
parameterised by

* the entries list — the result of `Object.entries(ops)` after the
  `shuffle` call of lines 166-167 (the shuffle itself is section 1); an
  entry is a name paired with `none` for the `null` operation or `some` of
  an operation model;
* a script for each operation — an oracle fixing what the operation's
  promise settles with, and, for a Selectable, the outcomes of its
  successive `wait()` and `attempt()` calls (this abstracts the channel
  state evolving under other tasks); and
* a race oracle — for each round, the index (into the current `promises`
  array) of the entry that `Promise.race` yields, abstracting microtask
  scheduling.

Each theorem about the coordinator holds for every oracle choice.
-/

/-- Outcome of one `attempt()` call on a Selectable: the
`SelectableAttemptResult` of `channel-api.ts` (`ok`/`notOk`), plus the
possibility that `attempt` throws, which select.ts lines 202-207 catch. -/
inductive AttemptR (V E : Type) where
  | ok (v : V)
  | notOk
  | athrows (e : E)
deriving DecidableEq

/-- Script of a Selectable operation: `waits k` is the outcome of the
`k`-th `wait()` call on it (`none` resolves with the value passed in,
`some e` rejects with `e`); `atts k` is the outcome of the `k`-th
`attempt()` call.  Calls past the end of `waits` never settle; runs that
would need a call past the end of `atts` end in the `stuck` outcome, about
which no theorem claims anything. -/
structure SelScript (V E : Type) where
  waits : List (Option E)
  atts : List (AttemptR V E)
deriving DecidableEq

instance {E V : Type} [DecidableEq E] [DecidableEq V] : DecidableEq (Except E V) :=
  fun x y =>
    match x, y with
    | Except.ok a, Except.ok b =>
      if h : a = b then isTrue (congrArg Except.ok h)
      else isFalse fun he => h (Except.ok.inj he)
    | Except.error a, Except.error b =>
      if h : a = b then isTrue (congrArg Except.error h)
      else isFalse fun he => h (Except.error.inj he)
    | Except.ok _, Except.error _ => isFalse fun he => Except.noConfusion he
    | Except.error _, Except.ok _ => isFalse fun he => Except.noConfusion he

/-- A non-null operation (`SelectOp`, select.ts lines 11-14): a plain
promise, an abortable function — kept distinct because the code passes the
shared signal to it — or a Selectable.  A promise settlement of `none`
means the promise never settles. -/
inductive MOp (V E : Type) where
  | prom (r : Option (Except E V))
  | fn (r : Option (Except E V))
  | sel (s : SelScript V E)
deriving DecidableEq

/-- Rejection values observable from the coordinator: `wrapped` is
`new SelectError(argName, cause)` (select.ts lines 34-38); `raw` is an
error surfaced without wrapping; `tyErr` is the TypeError thrown by
reading `.type` of an `undefined` race winner (a sparse-array hole). -/
inductive SFail (E : Type) where
  | wrapped (argName : String) (cause : E)
  | raw (e : E)
  | tyErr
deriving DecidableEq

/-- Model of `WaitResult` (select.ts lines 285-287).  `promRes` carries a
settled promise/function result; `selTok` is the token
`{type: 'selectable', name, index, self}` where `index` is the position in
`nameAndOp` passed by the `forEach` of lines 171-178 and `self` is the
Selectable stored at that same position, so one field models both. -/
inductive Tok (V : Type) where
  | promRes (name : String) (value : V)
  | selTok (name : String) (index : ℕ)
deriving DecidableEq

/-- One slot of the `promises` array: `will r` is a promise that settles
with `r` if raced to completion, `never` one that never settles, `hole` a
sparse-array hole (raced by `Promise.race` as `undefined`). -/
inductive Pend (V E : Type) where
  | will (r : Except (SFail E) (Tok V))
  | never
  | hole
deriving DecidableEq

/-- Model of `waitForOp` (select.ts lines 249-283) applied to the non-null
operation at `nameAndOp` position `idx`: the resulting promise of the
`promises` array.  Promise and function rejections are wrapped by the
`then` rejection handlers (lines 260-262, 270-272); a Selectable's first
`wait()` rejection is wrapped by the `.catch` of lines 280-282. -/
def armInit {V E : Type} (name : String) (idx : ℕ) : MOp V E → Pend V E
  | .prom none => .never
  | .prom (some (Except.ok v)) => .will (Except.ok (.promRes name v))
  | .prom (some (Except.error e)) => .will (Except.error (.wrapped name e))
  | .fn none => .never
  | .fn (some (Except.ok v)) => .will (Except.ok (.promRes name v))
  | .fn (some (Except.error e)) => .will (Except.error (.wrapped name e))
  | .sel s =>
    match s.waits.head? with
    | some none => .will (Except.ok (.selTok name idx))
    | some (some e) => .will (Except.error (.wrapped name e))
    | none => .never

/-- The `forEach` of select.ts lines 171-178: `null` entries are skipped
(but still advance the `forEach` index `i`), every other entry is armed
through `waitForOp` and pushed onto `promises`. -/
def initPromises {V E : Type} : List (String × Option (MOp V E)) → ℕ → List (Pend V E)
  | [], _ => []
  | (_, none) :: rest, i => initPromises rest (i + 1)
  | (name, some op) :: rest, i => armInit name i op :: initPromises rest (i + 1)

/-- Number of `wait()` calls already made on each entry after arming:
`1` for a Selectable (its `wait` is invoked inside `waitForOp`), `0`
otherwise. -/
def initWaitsUsed {V E : Type} (entries : List (String × Option (MOp V E))) : List ℕ :=
  entries.map fun e =>
    match e.2 with
    | some (.sel _) => 1
    | _ => 0

/-- The coordinator's mutable state: the `promises` array and, per
`nameAndOp` position, how many `wait()` and `attempt()` calls the run has
made on the operation there (consuming its script). -/
structure SelSt (V E : Type) where
  promises : List (Pend V E)
  waitsUsed : List ℕ
  attsUsed : List ℕ
deriving DecidableEq

/-- Initial state after select.ts lines 164-178. -/
def initSt {V E : Type} (entries : List (String × Option (MOp V E))) : SelSt V E :=
  { promises := initPromises entries 0,
    waitsUsed := initWaitsUsed entries,
    attsUsed := entries.map fun _ => 0 }

/-- JS array assignment `promises[winner.index] = …` (select.ts line 219):
an in-range write replaces the element; a write at an index `≥ length`
extends the array to `index + 1` elements, filling any skipped slots with
holes. -/
def storeAt {V E : Type} (l : List (Pend V E)) (i : ℕ) (x : Pend V E) : List (Pend V E) :=
  if i < l.length then l.set i x
  else l ++ List.replicate (i - l.length) Pend.hole ++ [x]

/-- Possible outcomes of a run of `select`. -/
inductive SOutcome (V E : Type) where
  | resolved (type : String) (value : V)
  | rejected (f : SFail E)
  | argumentError
  | pending
  | stuck
deriving DecidableEq

/-- Result of a run: the outcome together with the state of the
coordinator's single abort signal at the moment the outcome surfaces to
the caller. -/
structure SelectResult (V E : Type) where
  outcome : SOutcome V E
  abortedAtExit : Bool
deriving DecidableEq

/-- Result of one iteration of the race loop. -/
inductive StepRes (V E : Type) where
  | exit (o : SOutcome V E)
  | next (st : SelSt V E)
deriving DecidableEq

/-- One iteration of the `while (true)` loop of select.ts lines 187-220,
with `pick` the index of the promise that wins this round's
`Promise.race(promises)`:

* picking a `never` slot (or an index outside the array) means nothing can
  settle — the race, and hence `select`, stays pending;
* a `hole` races as `undefined`, and `winner.type` on line 190 then throws
  a TypeError, rejecting `select` with it;
* a settled rejection makes the `await` on line 188 throw, rejecting
  `select` with that value;
* a `promRes` winner returns `{type: name, value}` (lines 190-198);
* a `selTok` winner calls `attempt()` on its Selectable (line 203): a
  throw is wrapped into a SelectError (line 206), `ok` returns
  `{type: name, value}` (lines 209-217), and `notOk` re-arms by calling
  `wait` again with the shared signal — note line 219 stores the new wait
  promise at `winner.index` and chains no rejection handler onto it. -/
def selStep {V E : Type} (entries : List (String × Option (MOp V E)))
    (st : SelSt V E) (pick : ℕ) : StepRes V E :=
  match st.promises[pick]? with
  | none => .exit .pending
  | some .never => .exit .pending
  | some .hole => .exit (.rejected .tyErr)
  | some (.will (Except.error f)) => .exit (.rejected f)
  | some (.will (Except.ok (.promRes name v))) => .exit (.resolved name v)
  | some (.will (Except.ok (.selTok name idx))) =>
    match entries[idx]? with
    | some (_, some (.sel s)) =>
      match s.atts[(st.attsUsed[idx]?.getD 0)]? with
      | none => .exit .stuck
      | some (.athrows e) => .exit (.rejected (.wrapped name e))
      | some (.ok v) => .exit (.resolved name v)
      | some .notOk =>
        let newPend : Pend V E :=
          match s.waits[(st.waitsUsed[idx]?.getD 0)]? with
          | none => .never
          | some none => .will (Except.ok (.selTok name idx))
          | some (some e) => .will (Except.error (.raw e))
        .next
          { promises := storeAt st.promises idx newPend,
            waitsUsed := st.waitsUsed.set idx ((st.waitsUsed[idx]?.getD 0) + 1),
            attsUsed := st.attsUsed.set idx ((st.attsUsed[idx]?.getD 0) + 1) }
    | _ => .exit .stuck

/-- The race loop, driven by the race oracle and bounded by fuel (running
out of fuel leaves `select` pending; no theorem claims anything about that
artefact). -/
def selLoop {V E : Type} (entries : List (String × Option (MOp V E)))
    (oracle : ℕ → ℕ) : ℕ → ℕ → SelSt V E → SOutcome V E
  | 0, _, _ => .pending
  | fuel + 1, round, st =>
    match selStep entries st (oracle round) with
    | .exit o => o
    | .next st' => selLoop entries oracle fuel (round + 1) st'

/-- Embedding of `select(ops)` (select.ts lines 161-225) applied to the
shuffled entries list.  If no non-null operation was armed, line 181
throws before the `try`/`finally` is entered, so the signal is not
aborted; an exit out of the race loop passes through the `finally` of
lines 222-224, which aborts the coordinator's signal before the result
surfaces. -/
def selectRun {V E : Type} (entries : List (String × Option (MOp V E)))
    (oracle : ℕ → ℕ) (fuel : ℕ) : SelectResult V E :=
  let st := initSt entries
  if st.promises.isEmpty then
    { outcome := .argumentError, abortedAtExit := false }
  else
    match selLoop entries oracle fuel 0 st with
    | .resolved name v => { outcome := .resolved name v, abortedAtExit := true }
    | .rejected f => { outcome := .rejected f, abortedAtExit := true }
    | o => { outcome := o, abortedAtExit := false }

/-- Values an operation can legitimately resolve `select` with: the
resolution of a promise or abortable function, or a value of a successful
`attempt` of a Selectable's script. -/
def OpCanYield {V E : Type} : MOp V E → V → Prop
  | .prom (some (Except.ok w)), v => w = v
  | .fn (some (Except.ok w)), v => w = v
  | .sel s, v => AttemptR.ok v ∈ s.atts
  | _, _ => False

/-- Provenance invariant for one `promises` slot, relative to the suffix
`l` of the entries list starting at absolute position `i`: a settled
`promRes` carries the resolution of the promise or function of that name,
and a `selTok` points at the Selectable entry of its own name. -/
def PendRel {V E : Type} (l : List (String × Option (MOp V E))) (i : ℕ) : Pend V E → Prop
  | .will (Except.ok (Tok.promRes name v)) =>
      (name, some (MOp.prom (some (Except.ok v)))) ∈ l ∨
        (name, some (MOp.fn (some (Except.ok v)))) ∈ l
  | .will (Except.ok (Tok.selTok name idx)) =>
      i ≤ idx ∧ ∃ s, l[idx - i]? = some (name, some (MOp.sel s))
  | _ => True

/-- Provenance invariant for one `promises` slot with respect to the whole
entries list. -/
def PendOK {V E : Type} (entries : List (String × Option (MOp V E))) : Pend V E → Prop
  | .will (Except.ok (Tok.promRes name v)) =>
      (name, some (MOp.prom (some (Except.ok v)))) ∈ entries ∨
        (name, some (MOp.fn (some (Except.ok v)))) ∈ entries
  | .will (Except.ok (Tok.selTok name idx)) =>
      ∃ s, entries[idx]? = some (name, some (MOp.sel s))
  | _ => True

/-- Exits of the race loop: resolution with a winner or rejection with a
failure (as opposed to the synchronous ArgumentError throw, which exits
`select` before the `try`/`finally`). -/
def isLoopExit {V E : Type} : SOutcome V E → Bool
  | .resolved _ _ => true
  | .rejected _ => true
  | _ => false

/-- Input of the C1 trace: `select({a: null, ch: ch.raceRead()})` with
shuffle order `[a, ch]`, where the channel becomes readable and its value
is then stolen by another reader (the Selectable's first two waits
resolve, its attempts find the channel empty). -/
def entriesC1 : List (String × Option (MOp ℕ ℕ)) :=
  [("a", none),
   ("ch", some (MOp.sel ⟨[none, none], [AttemptR.notOk, AttemptR.notOk]⟩))]

/-- Input of the C2 trace: `select({ch: sel})` where the Selectable's
first wait resolves, its attempt finds the readiness stolen, and the
re-armed second wait rejects with error `7`. -/
def entriesC2 : List (String × Option (MOp ℕ ℕ)) :=
  [("ch", some (MOp.sel ⟨[none, some 7], [AttemptR.notOk]⟩))]

/-- A single already-resolved promise operation: `select({p: Promise.resolve(5)})`. -/
def entriesP : List (String × Option (MOp ℕ ℕ)) :=
  [("p", some (MOp.prom (some (Except.ok 5))))]

/-- The all-null map of the specification boundary example:
`select({a: null, b: null, c: null})`. -/
def entriesAllNull : List (String × Option (MOp ℕ ℕ)) :=
  [("a", none), ("b", none), ("c", none)]

/-! ### Section 3: promise-pipeline parity of `waitForOp`
(select.ts lines 249-283)

Each branch of `waitForOp` adapts its operation by chaining promise
continuations onto the operation's own promise; a continuation runs one
microtask after its parent settles.  The pipeline is embedded
syntactically: a base promise settling at some tick, plus one node per
chained continuation.
-/

/-- A promise pipeline: a base promise that settles at tick `t`, with zero
or more chained continuations (`then`/`catch` links), each adding one
microtask before the chained promise settles. -/
inductive PChain where
  | base (t : ℕ)
  | cont (p : PChain)
deriving DecidableEq

/-- The microtask tick at which the end of the pipeline settles: one tick
per chained continuation after the base settles. -/
def settleTick : PChain → ℕ
  | .base t => t
  | .cont p => settleTick p + 1

/-- The pipeline `waitForOp` builds over an operation whose own promise
settles at tick `t`:

* a promise `op` becomes `op.then(onResolved, onRejected)` — one
  continuation (select.ts lines 255-264);
* an abortable function becomes `op(signal).then(onResolved, onRejected)`
  — one continuation (lines 266-274);
* a Selectable becomes `op.wait(…, signal).catch(onRejected)` — one
  continuation (lines 276-283). -/
def waitForOpChain {V E : Type} : MOp V E → ℕ → PChain
  | .prom _, t => .cont (.base t)
  | .fn _, t => .cont (.base t)
  | .sel _, t => .cont (.base t)

/-! ### Section 4: the channel state machine

The `Channel` implementation is not part of the source tree (only its
interface, `channel-api.ts`, is); the state machine below is modelled
from the specification, §3 (data model) and §4.1 (public operations). -/

/-- Modelled from the spec: the `Channel` data model of §3, whose
implementation is missing from src/.  `capacity` is fixed at creation,
`buffer` is a bounded FIFO, `closed` is monotonic, `pendingReads` counts
readers suspended because no value is available, and `pendingWrites`
holds the values of writers suspended because the buffer is full (or no
reader is waiting, for capacity 0). -/
structure Chan (T : Type) where
  capacity : ℕ
  buffer : List T
  closed : Bool
  pendingReads : ℕ
  pendingWrites : List T
deriving DecidableEq

/-- Modelled from the spec: a freshly constructed channel — empty buffer,
open, no suspended readers or writers (§6, channel constructor). -/
def newChan (T : Type) (capacity : ℕ) : Chan T :=
  ⟨capacity, [], false, 0, []⟩

/-- How a `write(v)` call is serviced. -/
inductive WriteRes where
  | handedToReader
  | storedInBuffer
  | suspendedWriter
  | closedError
deriving DecidableEq

/-- Modelled from the spec: `write(v)` of §4.1, whose implementation is
missing from src/.  If closed now it fails with CannotWriteIntoClosed; on
success, if a reader is already waiting the value is handed directly to
that reader and the write resolves immediately; else if
`buffer.size < capacity` the value is appended and the write resolves;
else the writer is enqueued in `pendingWrites` with the value. -/
def writeStep {T : Type} (c : Chan T) (v : T) : WriteRes × Chan T :=
  if c.closed then (.closedError, c)
  else if 0 < c.pendingReads then
    (.handedToReader, { c with pendingReads := c.pendingReads - 1 })
  else if c.buffer.length < c.capacity then
    (.storedInBuffer, { c with buffer := c.buffer ++ [v] })
  else
    (.suspendedWriter, { c with pendingWrites := c.pendingWrites ++ [v] })

/-- How a `read()` call is serviced. -/
inductive ReadRes (T : Type) where
  | value (v : T)
  | closedAbsent
  | blockedReader
deriving DecidableEq

/-- Modelled from the spec: the admission step (i) of `read()` in §4.1 —
if `pendingWrites` is non-empty and the buffer has a free slot, the head
writer is admitted into the buffer before the read dequeues. -/
def admitWriter {T : Type} (c : Chan T) : Chan T :=
  match c.pendingWrites with
  | [] => c
  | w :: rest =>
    if c.buffer.length < c.capacity then
      { c with buffer := c.buffer ++ [w], pendingWrites := rest }
    else c

/-- Modelled from the spec: `read()` of §4.1, whose implementation is
missing from src/.  After the admission step, the reader takes the head
of the buffer, or, in the unbuffered case, hands off directly from the
head writer; on a closed and drained channel it resolves with the absent
marker; otherwise it suspends. -/
def readStep {T : Type} (c : Chan T) : ReadRes T × Chan T :=
  let c1 := admitWriter c
  match c1.buffer with
  | b :: rest => (.value b, { c1 with buffer := rest })
  | [] =>
    match c1.pendingWrites with
    | w :: rest => (.value w, { c1 with pendingWrites := rest })
    | [] =>
      if c1.closed then (.closedAbsent, c1)
      else (.blockedReader, { c1 with pendingReads := c1.pendingReads + 1 })

/-! ### Section 5: `sleep` and the abortable-future helper

`sleep` (src/select-helpers.ts lines 8-19) wraps a producer into
`makeAbortablePromise`; the producer sets a timer that resolves with
`value` after `ms` and returns the teardown `() => clearTimeout(handle)`.
The implementation of `makeAbortablePromise` is not under src/ and is
modelled from §4.4 of the specification.  A run of `sleep(ms, value,
signal)` is driven by the (at most two) relevant events — the abort
signal firing and the timer coming due — processed in time order. -/

/-- Settlement of a sleep: resolution with the value, or rejection with
the Aborted error kind. -/
inductive SleepResult (V : Type) where
  | resolvedValue (v : V)
  | abortedError
deriving DecidableEq

/-- Observable state of one `sleep` call: whether its timer is still
pending, whether the abort listener is still installed, the settlement (if
any), whether the timer callback ever fired, and how many times the
teardown ran. -/
structure SleepSt (V : Type) where
  timerPending : Bool
  listenerOn : Bool
  settled : Option (SleepResult V)
  timerFired : Bool
  teardownRuns : ℕ
deriving DecidableEq

/-- The two events that can affect a pending sleep. -/
inductive SleepEv where
  | abortFires
  | timerDue
deriving DecidableEq

/-- Modelled from the spec: the event handlers of `makeAbortablePromise`
(§4.4), whose implementation is missing from src/, instantiated with the
producer of `sleep` (src/select-helpers.ts lines 9-18).

* When the abort signal fires and the listener is still installed, the
  listener (a) rejects the future with the Aborted kind, (b) calls the
  teardown — for `sleep`, `clearTimeout(handle)`, which cancels the
  pending timer — and (c) removes itself.
* When the timer comes due and has not been cleared, its callback fires
  and resolves the future with `value`; on this first resolution the
  abort listener is removed and the teardown is called.  A cleared timer
  does nothing. -/
def sleepStep {V : Type} (value : V) (st : SleepSt V) : SleepEv → SleepSt V
  | .abortFires =>
    if st.listenerOn then
      { timerPending := false,
        listenerOn := false,
        settled := some .abortedError,
        timerFired := st.timerFired,
        teardownRuns := st.teardownRuns + 1 }
    else st
  | .timerDue =>
    if st.timerPending then
      { timerPending := false,
        listenerOn := false,
        settled :=
          match st.settled with
          | none => some (.resolvedValue value)
          | some r => some r,
        timerFired := true,
        teardownRuns := st.teardownRuns + 1 }
    else st

/-- The relevant events of one `sleep(ms)` run with the signal firing at
`abortAt` (if ever), in time order: an abort strictly before the timeout
is delivered before the timer comes due. -/
def sleepEvents (ms : ℕ) (abortAt : Option ℕ) : List SleepEv :=
  match abortAt with
  | none => [.timerDue]
  | some t => if t < ms then [.abortFires, .timerDue] else [.timerDue, .abortFires]

/-- Modelled from the spec: a whole `sleep(ms, value, signal)` run, with
the signal firing at time `abortAt` (`none`: never; `some 0`: already
aborted at call time, in which case §4.4 rejects immediately with Aborted
and never invokes the producer, so no timer is ever set).  Otherwise the
producer installs the timer and listener and the events are processed in
time order. -/
def runSleep {V : Type} (ms : ℕ) (value : V) (abortAt : Option ℕ) : SleepSt V :=
  match abortAt with
  | some 0 =>
    { timerPending := false, listenerOn := false, settled := some .abortedError,
      timerFired := false, teardownRuns := 0 }
  | _ =>
    (sleepEvents ms abortAt).foldl (sleepStep value)
      { timerPending := true, listenerOn := true, settled := none,
        timerFired := false, teardownRuns := 0 }

/-! ### Theorems -/

/-- Reading an array through `swapIdx` is reading it through the
transposition of the two positions. -/
theorem swapIdx_eq_comp {n : ℕ} {α : Type*} (a : Fin n → α) (i j : Fin n) :
    swapIdx a i j = fun k => a (Equiv.swap i j k) := by
  funext k
  simp only [swapIdx, Equiv.swap_apply_def]
  split_ifs <;> rfl

/-- The draw at position `0` is the unique element of `Fin 1`, i.e. `0`. -/
theorem draw_zero_val {n : ℕ} (d : FYDraws n) (h : 0 < n) :
    Fin.castLE h (d ⟨0, h⟩) = ⟨0, h⟩ := by
  apply Fin.ext
  rw [Fin.coe_castLE]
  have h0 := (d ⟨0, h⟩).isLt
  have hv : (⟨0, h⟩ : Fin n).val = 0 := rfl
  omega

/-- Iteration `i = 0` (absent from the source loop, which starts at
`i = 1`) swaps index `0` with itself: after it the array is unchanged. -/
theorem shuffleAux_one {n : ℕ} {α : Type*} (a : Fin n → α) (d : FYDraws n) :
    shuffleAux a d 1 = a := by
  rw [shuffleAux]
  by_cases h : 0 < n
  · rw [dif_pos h, draw_zero_val d h, swapIdx_eq_comp, Equiv.swap_self]
    rfl
  · rw [dif_neg h]
    rfl

theorem fySwap_zero {n : ℕ} (d : FYDraws n) : fySwap d 0 = 1 := by
  rw [fySwap]
  by_cases h : 0 < n
  · rw [dif_pos h, draw_zero_val d h, Equiv.swap_self]
    rfl
  · rw [dif_neg h]

/-- The array after `k` iterations is the initial array read through the
accumulated position permutation. -/
theorem shuffleAux_eq_perm {n : ℕ} {α : Type*} (a : Fin n → α) (d : FYDraws n) (k : ℕ) :
    shuffleAux a d k = fun x => a (fyPermAux d k x) := by
  induction k with
  | zero => rfl
  | succ k ih =>
    rw [shuffleAux, fyPermAux, fySwap]
    by_cases h : k < n
    · rw [dif_pos h, dif_pos h, ih, swapIdx_eq_comp]
      funext x
      rw [Equiv.Perm.mul_apply]
    · rw [dif_neg h, dif_neg h, ih, mul_one]

theorem shuffleWith_eq_perm {n : ℕ} {α : Type*} (a : Fin n → α) (d : FYDraws n) :
    shuffleWith a d = fun x => a (fyPerm n d x) :=
  shuffleAux_eq_perm a d n

/-- After `k` iterations the accumulated permutation fixes every position
`≥ k`: iteration `i` only touches positions `i` and `j ≤ i`. -/
theorem fyPermAux_fix_ge {n : ℕ} (d : FYDraws n) (k : ℕ) (x : Fin n) (hx : k ≤ x.val) :
    fyPermAux d k x = x := by
  induction k with
  | zero => rfl
  | succ k ih =>
    rw [fyPermAux, fySwap]
    by_cases h : k < n
    · rw [dif_pos h, Equiv.Perm.mul_apply]
      have h1 : x ≠ ⟨k, h⟩ := by
        intro he
        have hv : x.val = k := by rw [he]
        omega
      have h2 : x ≠ Fin.castLE h (d ⟨k, h⟩) := by
        intro he
        have hv : x.val = (d ⟨k, h⟩).val := by rw [he]; rfl
        have hlt := (d ⟨k, h⟩).isLt
        have hk : (⟨k, h⟩ : Fin n).val = k := rfl
        omega
      rw [Equiv.swap_apply_of_ne_of_ne h1 h2]
      exact ih (by omega)
    · rw [dif_neg h, mul_one]
      exact ih (by omega)

/-- Iteration `k` sends the drawn index to position `k`, and no earlier
iteration moves position `k`: the accumulated permutation after `k + 1`
iterations maps the drawn index `d k` to `k`.  This forces the draw: it is
recoverable from the resulting permutation. -/
theorem fyPermAux_apply_draw {n : ℕ} (d : FYDraws n) (k : ℕ) (h : k < n) :
    fyPermAux d (k + 1) (Fin.castLE h (d ⟨k, h⟩)) = ⟨k, h⟩ := by
  rw [fyPermAux, fySwap, dif_pos h, Equiv.Perm.mul_apply, Equiv.swap_apply_right]
  exact fyPermAux_fix_ge d k ⟨k, h⟩ (le_refl k)

/-- If two draw tuples realise the same permutation after `k + 1`
iterations, their draws at position `k` coincide (`fyPermAux_apply_draw`
recovers the draw from the permutation). -/
theorem draw_determined {n : ℕ} (d d' : FYDraws n) (k : ℕ) (h : k < n)
    (hg : fyPermAux d (k + 1) = fyPermAux d' (k + 1)) : d ⟨k, h⟩ = d' ⟨k, h⟩ := by
  have h1 := fyPermAux_apply_draw d k h
  have h2 := fyPermAux_apply_draw d' k h
  rw [hg] at h1
  exact Fin.castLE_injective h ((fyPermAux d' (k + 1)).injective (h1.trans h2.symm))

/-- The swaps performed at iteration `k` agree when the draws agree. -/
theorem fySwap_congr {n : ℕ} (d d' : FYDraws n) (k : ℕ) (h : k < n)
    (hd : d ⟨k, h⟩ = d' ⟨k, h⟩) : fySwap d k = fySwap d' k := by
  rw [fySwap, fySwap, dif_pos h, dif_pos h, hd]

/-- Downward induction: equality of the full accumulated permutations
propagates to every prefix of the loop. -/
theorem fyPermAux_determined {n : ℕ} (d d' : FYDraws n)
    (hg : fyPermAux d n = fyPermAux d' n) :
    ∀ m, m ≤ n → fyPermAux d (n - m) = fyPermAux d' (n - m) := by
  intro m
  induction m with
  | zero => intro _; simpa using hg
  | succ m ih =>
    intro hm
    have hprev := ih (by omega)
    have hk : n - m = (n - (m + 1)) + 1 := by omega
    rw [hk] at hprev
    have hkn : n - (m + 1) < n := by omega
    have hd := draw_determined d d' (n - (m + 1)) hkn hprev
    have e1 : fyPermAux d ((n - (m + 1)) + 1) =
        fyPermAux d (n - (m + 1)) * fySwap d (n - (m + 1)) := rfl
    have e2 : fyPermAux d' ((n - (m + 1)) + 1) =
        fyPermAux d' (n - (m + 1)) * fySwap d' (n - (m + 1)) := rfl
    have hsw := fySwap_congr d d' (n - (m + 1)) hkn hd
    have := hprev
    rw [e1, e2, hsw] at this
    exact mul_right_cancel this

/-- The map from draw tuples to permutations is injective. -/
theorem fyPerm_injective (n : ℕ) : Function.Injective (fyPerm n) := by
  intro d d' hg
  funext i
  have hi := i.isLt
  have h1 : fyPermAux d (i.val + 1) = fyPermAux d' (i.val + 1) := by
    have hstep := fyPermAux_determined d d' hg (n - (i.val + 1)) (by omega)
    have he : n - (n - (i.val + 1)) = i.val + 1 := by omega
    rwa [he] at hstep
  exact draw_determined d d' i.val hi h1

/-- There are exactly `n!` draw tuples. -/
theorem card_fydraws (n : ℕ) : Fintype.card (FYDraws n) = n.factorial := by
  rw [Fintype.card_pi]
  have he : ∀ i : Fin n, Fintype.card (Fin (i.val + 1)) = i.val + 1 :=
    fun i => Fintype.card_fin _
  rw [Finset.prod_congr rfl (fun i _ => he i),
    Fin.prod_univ_eq_prod_range (fun i => i + 1) n]
  exact Finset.prod_range_add_one_eq_factorial n

/-- The map from draw tuples to permutations is a bijection. -/
theorem fyPerm_bijective (n : ℕ) : Function.Bijective (fyPerm n) :=
  (Fintype.bijective_iff_injective_and_card _).mpr
    ⟨fyPerm_injective n, by rw [card_fydraws, Fintype.card_perm, Fintype.card_fin]⟩

/-- For `0 ≤ r < 1`, the draw `randomInt(0, i+1)` equals `j` exactly when
`r` lies in the interval `[j/(i+1), (j+1)/(i+1))`: the `i + 1` possible
draws have preimage intervals of equal width `1/(i+1)`, so a uniform `r`
induces a uniform draw. -/
theorem randomInt_preimage (i : ℕ) (j : ℤ) (r : ℚ) (_h0 : 0 ≤ r) (_h1 : r < 1) :
    randomInt r 0 ((i : ℤ) + 1) = j ↔
      (j : ℚ) / ((i : ℚ) + 1) ≤ r ∧ r < ((j : ℚ) + 1) / ((i : ℚ) + 1) := by
  have hpos : (0 : ℚ) < (i : ℚ) + 1 := by positivity
  rw [randomInt]
  have hsimp : r * (((((i : ℤ) + 1) : ℤ) : ℚ) - ((0 : ℤ) : ℚ)) + ((0 : ℤ) : ℚ)
      = r * ((i : ℚ) + 1) := by push_cast; ring
  rw [hsimp, Int.floor_eq_iff]
  constructor
  · rintro ⟨ha, hb⟩
    constructor
    · rw [div_le_iff₀ hpos]
      exact ha
    · rw [lt_div_iff₀ hpos]
      linarith
  · rintro ⟨ha, hb⟩
    constructor
    · rw [div_le_iff₀ hpos] at ha
      exact ha
    · rw [lt_div_iff₀ hpos] at hb
      linarith

/-- For `0 ≤ r < 1` the drawn index `j = randomInt(0, i + 1)` of loop
iteration `i` satisfies `0 ≤ j ≤ i`: every array access of the shuffle is
in bounds. -/
theorem randomInt_bounds (i : ℕ) (r : ℚ) (h0 : 0 ≤ r) (h1 : r < 1) :
    0 ≤ randomInt r 0 ((i : ℤ) + 1) ∧ randomInt r 0 ((i : ℤ) + 1) ≤ (i : ℤ) := by
  rw [randomInt]
  have hsimp : r * (((((i : ℤ) + 1) : ℤ) : ℚ) - ((0 : ℤ) : ℚ)) + ((0 : ℤ) : ℚ)
      = r * ((i : ℚ) + 1) := by push_cast; ring
  rw [hsimp]
  constructor
  · apply Int.floor_nonneg.mpr
    positivity
  · have hlt : r * ((i : ℚ) + 1) < (i : ℚ) + 1 := by
      have hpos : (0 : ℚ) < (i : ℚ) + 1 := by positivity
      nlinarith
    have := Int.floor_lt.mpr (by push_cast; linarith : r * ((i : ℚ) + 1) < (((i : ℤ) + 1 : ℤ) : ℚ))
    omega

/-- For in-range random values the clamp in `toDraws` is the identity: the
drawn index is exactly the source's `randomInt(0, i + 1)`. -/
theorem toDraws_val {n : ℕ} (rs : ℕ → ℚ) (hrs : ∀ k, 0 ≤ rs k ∧ rs k < 1) (i : Fin n) :
    ((toDraws n rs i : ℕ) : ℤ) = randomInt (rs i.val) 0 ((i.val : ℤ) + 1) := by
  obtain ⟨hb0, hb1⟩ := randomInt_bounds i.val (rs i.val) (hrs i.val).1 (hrs i.val).2
  show ((min (randomInt (rs i.val) 0 ((i.val : ℤ) + 1)).toNat i.val : ℕ) : ℤ) = _
  have htn : (randomInt (rs i.val) 0 ((i.val : ℤ) + 1)).toNat ≤ i.val := by omega
  rw [min_eq_left htn]
  omega

/-- The shuffled array holds a permutation of the original elements. -/
theorem ofFn_shuffleWith_perm {n : ℕ} {α : Type*} (a : Fin n → α) (d : FYDraws n) :
    List.Perm (List.ofFn (shuffleWith a d)) (List.ofFn a) := by
  rw [shuffleWith_eq_perm]
  exact Equiv.Perm.ofFn_comp_perm (fyPerm n d) a

/-- Arrays of length `0` or `1` are unchanged by the shuffle. -/
theorem shuffleWith_short {n : ℕ} {α : Type*} (a : Fin n → α) (d : FYDraws n)
    (hn : n ≤ 1) : shuffleWith a d = a := by
  rw [shuffleWith]
  interval_cases n
  · rfl
  · exact shuffleAux_one a d

/-- C4. With the `n - 1` random draws modelled as values in `[0, 1)`,
`shuffle` produces each of the `n!` permutations of the array with equal
probability: (1) the map from the tuple of drawn indices `j_i ∈ [0, i]` to
the resulting position permutation is a bijection onto the `n!`
permutations; (2) the shuffled array is exactly the original array read
through that permutation; and (3) a uniform `r ∈ [0, 1)` induces a uniform
drawn index, since the preimage of each `j ∈ [0, i]` under
`randomInt(0, i+1)` is an interval of width `1/(i+1)`. -/
theorem fisher_yates_uniform (n : ℕ) :
    Function.Bijective (fyPerm n) ∧
      (∀ (α : Type*) (a : Fin n → α) (d : FYDraws n),
        shuffleWith a d = fun x => a (fyPerm n d x)) ∧
      (∀ (i : ℕ) (j : ℤ) (r : ℚ), 0 ≤ r → r < 1 →
        (randomInt r 0 ((i : ℤ) + 1) = j ↔
          (j : ℚ) / ((i : ℚ) + 1) ≤ r ∧ r < ((j : ℚ) + 1) / ((i : ℚ) + 1))) :=
  ⟨fyPerm_bijective n,
    fun _ a d => shuffleWith_eq_perm a d,
    fun i j r h0 h1 => randomInt_preimage i j r h0 h1⟩

/-- Witness for `fisher_yates_uniform` at `n = 1`, `i = 1`, `j = 1`,
`r = 1/2`. -/
theorem fisher_yates_uniform_witness :
    0 ≤ (1/2 : ℚ) ∧ (1/2 : ℚ) < 1 ∧
      (randomInt (1/2) 0 (((1 : ℕ) : ℤ) + 1) = (1 : ℤ) ↔
        (((1 : ℤ) : ℚ)) / (((1 : ℕ) : ℚ) + 1) ≤ 1/2 ∧
          (1/2 : ℚ) < (((1 : ℤ) : ℚ) + 1) / (((1 : ℕ) : ℚ) + 1)) :=
  ⟨by norm_num, by norm_num,
    (fisher_yates_uniform.{1} 1).2.2 1 1 (1/2) (by norm_num) (by norm_num)⟩

/-- C10. For every input array and every stream of random draws in
`[0, 1)`: each drawn index `j` of iteration `i` satisfies `0 ≤ j ≤ i` (all
accesses in bounds, and the totalising clamp of the embedding never
engages), the shuffled array holds a permutation of the original elements,
and arrays of length `0` or `1` are unchanged. -/
theorem shuffle_safety {n : ℕ} {α : Type*} (a : Fin n → α) (rs : ℕ → ℚ)
    (hrs : ∀ k, 0 ≤ rs k ∧ rs k < 1) :
    (∀ i : ℕ, 0 ≤ randomInt (rs i) 0 ((i : ℤ) + 1) ∧
        randomInt (rs i) 0 ((i : ℤ) + 1) ≤ (i : ℤ)) ∧
      (∀ i : Fin n, ((toDraws n rs i : ℕ) : ℤ) = randomInt (rs i.val) 0 ((i.val : ℤ) + 1)) ∧
      List.Perm (List.ofFn (shuffleRand a rs)) (List.ofFn a) ∧
      (n ≤ 1 → shuffleRand a rs = a) :=
  ⟨fun i => randomInt_bounds i (rs i) (hrs i).1 (hrs i).2,
    fun i => toDraws_val rs hrs i,
    ofFn_shuffleWith_perm a (toDraws n rs),
    fun hn => shuffleWith_short a (toDraws n rs) hn⟩

/-- Witness for `shuffle_safety` on the length-2 array `[3, 5]` with all
random values `1/2`. -/
theorem shuffle_safety_witness :
    (∀ k : ℕ, 0 ≤ (fun _ : ℕ => (1/2 : ℚ)) k ∧ (fun _ : ℕ => (1/2 : ℚ)) k < 1) ∧
      List.Perm (List.ofFn (shuffleRand (![3, 5] : Fin 2 → ℕ) (fun _ => 1/2)))
        (List.ofFn (![3, 5] : Fin 2 → ℕ)) := by
  have hh : ∀ k : ℕ, 0 ≤ (fun _ : ℕ => (1/2 : ℚ)) k ∧ (fun _ : ℕ => (1/2 : ℚ)) k < 1 :=
    fun _ => ⟨by norm_num, by norm_num⟩
  exact ⟨hh, (shuffle_safety (![3, 5] : Fin 2 → ℕ) (fun _ => 1/2) hh).2.2.1⟩

/-- Weakening of the slot invariant: a slot fine for the suffix at `i + 1`
is fine for the extended suffix at `i`. -/
theorem PendRel.weaken_cons {V E : Type} (e : String × Option (MOp V E))
    (l : List (String × Option (MOp V E))) (i : ℕ) (p : Pend V E)
    (h : PendRel l (i + 1) p) : PendRel (e :: l) i p := by
  cases p with
  | never => trivial
  | hole => trivial
  | will r =>
    cases r with
    | error f => trivial
    | ok t =>
      cases t with
      | promRes name v =>
        simp only [PendRel] at h ⊢
        rcases h with h | h
        · exact Or.inl (List.mem_cons_of_mem e h)
        · exact Or.inr (List.mem_cons_of_mem e h)
      | selTok name idx =>
        simp only [PendRel] at h ⊢
        obtain ⟨hle, s, hs⟩ := h
        refine ⟨by omega, s, ?_⟩
        have hsub : idx - i = (idx - (i + 1)) + 1 := by omega
        rw [hsub, List.getElem?_cons_succ]
        exact hs

/-- Every slot produced by the arming `forEach` satisfies the provenance
invariant relative to its suffix. -/
theorem initPromises_rel {V E : Type} :
    ∀ (l : List (String × Option (MOp V E))) (i : ℕ) (p : Pend V E),
      p ∈ initPromises l i → PendRel l i p := by
  intro l
  induction l with
  | nil =>
    intro i p hp
    simp [initPromises] at hp
  | cons e rest ih =>
    intro i p hp
    obtain ⟨name, op⟩ := e
    cases op with
    | none =>
      rw [initPromises] at hp
      exact PendRel.weaken_cons _ rest i p (ih (i + 1) p hp)
    | some op =>
      rw [initPromises] at hp
      rcases List.mem_cons.mp hp with hp | hp
      · subst hp
        cases op with
        | prom r =>
          rcases r with _ | r
          · trivial
          rcases r with e0 | v
          · trivial
          · exact Or.inl (List.mem_cons_self _ _)
        | fn r =>
          rcases r with _ | r
          · trivial
          rcases r with e0 | v
          · trivial
          · exact Or.inr (List.mem_cons_self _ _)
        | sel s =>
          rcases hw : s.waits.head? with _ | w
          · simp only [armInit, hw]
            trivial
          rcases w with _ | e0
          · simp only [armInit, hw, PendRel]
            exact ⟨le_refl i, s, by simp⟩
          · simp only [armInit, hw]
            trivial
      · exact PendRel.weaken_cons _ rest i p (ih (i + 1) p hp)

/-- Every slot of the initial state satisfies the provenance invariant. -/
theorem initSt_inv {V E : Type} (entries : List (String × Option (MOp V E))) :
    ∀ p ∈ (initSt entries).promises, PendOK entries p := by
  intro p hp
  have h := initPromises_rel entries 0 p hp
  cases p with
  | never => trivial
  | hole => trivial
  | will r =>
    cases r with
    | error f => trivial
    | ok t =>
      cases t with
      | promRes name v => exact h
      | selTok name idx =>
        simp only [PendRel, Nat.sub_zero] at h
        exact h.2

/-- Membership after the JS store: an element of the written array is an
old element, the written element, or a filler hole. -/
theorem mem_storeAt {V E : Type} (l : List (Pend V E)) (i : ℕ) (x p : Pend V E)
    (hp : p ∈ storeAt l i x) : p ∈ l ∨ p = x ∨ p = Pend.hole := by
  rw [storeAt] at hp
  by_cases h : i < l.length
  · rw [if_pos h] at hp
    rcases List.mem_or_eq_of_mem_set hp with hp | hp
    · exact Or.inl hp
    · exact Or.inr (Or.inl hp)
  · rw [if_neg h] at hp
    rcases List.mem_append.mp hp with hp | hp
    · rcases List.mem_append.mp hp with hp | hp
      · exact Or.inl hp
      · exact Or.inr (Or.inr (List.eq_of_mem_replicate hp))
    · rcases List.mem_singleton.mp hp with rfl
      exact Or.inr (Or.inl rfl)

/-- A race-loop iteration that continues preserves the provenance
invariant of every slot: the only write is the re-armed wait of the
winning Selectable token, which carries the same name and index. -/
theorem selStep_next_inv {V E : Type} (entries : List (String × Option (MOp V E)))
    (st : SelSt V E) (pick : ℕ) (st' : SelSt V E)
    (hinv : ∀ p ∈ st.promises, PendOK entries p)
    (hstep : selStep entries st pick = .next st') :
    ∀ p ∈ st'.promises, PendOK entries p := by
  rcases hg : st.promises[pick]? with _ | pw
  · simp [selStep, hg] at hstep
  cases pw with
  | never => simp [selStep, hg] at hstep
  | hole => simp [selStep, hg] at hstep
  | will r =>
    cases r with
    | error f => simp [selStep, hg] at hstep
    | ok t =>
      cases t with
      | promRes name v => simp [selStep, hg] at hstep
      | selTok name idx =>
        have hwin : PendOK entries (Pend.will (Except.ok (Tok.selTok name idx))) :=
          hinv _ (List.getElem?_mem hg)
        rcases hge : entries[idx]? with _ | e0
        · simp [selStep, hg, hge] at hstep
        obtain ⟨nm2, op2⟩ := e0
        cases op2 with
        | none => simp [selStep, hg, hge] at hstep
        | some op2 =>
          cases op2 with
          | prom r2 => simp [selStep, hg, hge] at hstep
          | fn r2 => simp [selStep, hg, hge] at hstep
          | sel s =>
            rcases ha : s.atts[(st.attsUsed[idx]?.getD 0)]? with _ | att
            · simp [selStep, hg, hge, ha] at hstep
            cases att with
            | athrows e1 => simp [selStep, hg, hge, ha] at hstep
            | ok v1 => simp [selStep, hg, hge, ha] at hstep
            | notOk =>
              simp only [selStep, hg, hge, ha] at hstep
              cases hstep
              intro p hp
              rcases mem_storeAt _ _ _ _ hp with hp | hp | hp
              · exact hinv p hp
              · subst hp
                rcases hw : s.waits[(st.waitsUsed[idx]?.getD 0)]? with _ | w
                · simp only [hw]
                  trivial
                rcases w with _ | e1
                · simp only [hw]
                  exact hwin
                · simp only [hw]
                  trivial
              · subst hp
                trivial

/-- A race-loop iteration that resolves `select` resolves it with a value
legitimately produced by the operation of that name. -/
theorem selStep_resolved_prov {V E : Type} (entries : List (String × Option (MOp V E)))
    (st : SelSt V E) (pick : ℕ) (name : String) (v : V)
    (hinv : ∀ p ∈ st.promises, PendOK entries p)
    (hstep : selStep entries st pick = .exit (.resolved name v)) :
    ∃ op, (name, some op) ∈ entries ∧ OpCanYield op v := by
  rcases hg : st.promises[pick]? with _ | pw
  · simp [selStep, hg] at hstep
  cases pw with
  | never => simp [selStep, hg] at hstep
  | hole => simp [selStep, hg] at hstep
  | will r =>
    cases r with
    | error f => simp [selStep, hg] at hstep
    | ok t =>
      cases t with
      | promRes nm vv =>
        have hwin : PendOK entries (Pend.will (Except.ok (Tok.promRes nm vv))) :=
          hinv _ (List.getElem?_mem hg)
        simp only [selStep, hg] at hstep
        cases hstep
        rcases hwin with hm | hm
        · exact ⟨MOp.prom (some (Except.ok v)), hm, rfl⟩
        · exact ⟨MOp.fn (some (Except.ok v)), hm, rfl⟩
      | selTok nm idx =>
        have hwin : PendOK entries (Pend.will (Except.ok (Tok.selTok nm idx))) :=
          hinv _ (List.getElem?_mem hg)
        obtain ⟨s', hs'⟩ := hwin
        rcases hge : entries[idx]? with _ | e0
        · simp [selStep, hg, hge] at hstep
        obtain ⟨nm2, op2⟩ := e0
        cases op2 with
        | none => simp [selStep, hg, hge] at hstep
        | some op2 =>
          cases op2 with
          | prom r2 => simp [selStep, hg, hge] at hstep
          | fn r2 => simp [selStep, hg, hge] at hstep
          | sel s =>
            have hsame : nm2 = nm ∧ s = s' := by
              rw [hge] at hs'
              have h1 := Option.some.inj hs'
              constructor
              · exact (Prod.mk.inj h1).1
              · have h2 := (Prod.mk.inj h1).2
                exact MOp.sel.inj (Option.some.inj h2)
            rcases ha : s.atts[(st.attsUsed[idx]?.getD 0)]? with _ | att
            · simp [selStep, hg, hge, ha] at hstep
            cases att with
            | athrows e1 => simp [selStep, hg, hge, ha] at hstep
            | notOk =>
              simp only [selStep, hg, hge, ha] at hstep
              cases hstep
            | ok v1 =>
              simp only [selStep, hg, hge, ha] at hstep
              cases hstep
              refine ⟨MOp.sel s, ?_, ?_⟩
              · rw [hsame.1] at hge
                exact List.getElem?_mem hge
              · show AttemptR.ok v ∈ s.atts
                exact List.getElem?_mem ha

/-- Provenance along the race loop: a run that resolves, started from an
invariant-satisfying state, resolves with a value of the operation named
in the result. -/
theorem selLoop_resolved_prov {V E : Type} (entries : List (String × Option (MOp V E)))
    (oracle : ℕ → ℕ) :
    ∀ (fuel round : ℕ) (st : SelSt V E) (name : String) (v : V),
      (∀ p ∈ st.promises, PendOK entries p) →
      selLoop entries oracle fuel round st = .resolved name v →
      ∃ op, (name, some op) ∈ entries ∧ OpCanYield op v := by
  intro fuel
  induction fuel with
  | zero =>
    intro round st name v _ h
    simp [selLoop] at h
  | succ fuel ih =>
    intro round st name v hinv h
    rw [selLoop] at h
    rcases hs : selStep entries st (oracle round) with o | st'
    · rw [hs] at h
      simp only [] at h
      subst h
      exact selStep_resolved_prov entries st (oracle round) name v hinv hs
    · rw [hs] at h
      simp only [] at h
      exact ih (round + 1) st' name v (selStep_next_inv entries st (oracle round) st' hinv hs) h

/-- C5. Whenever `select` resolves, it resolves with a record
`{type: name, value: result}` in which `name` is the key of an operation
of the caller's map and `result` is that same operation's settled value —
the resolution of the promise or abortable function of that name, or the
value of a successful `attempt` of the Selectable of that name.  `select`
never resolves with a value produced by an operation whose name is not the
returned `type`; this holds for every race-oracle schedule and every
fuel bound. -/
theorem select_resolution_provenance {V E : Type}
    (entries : List (String × Option (MOp V E))) (oracle : ℕ → ℕ) (fuel : ℕ)
    (name : String) (v : V)
    (h : (selectRun entries oracle fuel).outcome = .resolved name v) :
    ∃ op, (name, some op) ∈ entries ∧ OpCanYield op v := by
  simp only [selectRun] at h
  by_cases he : (initSt entries).promises.isEmpty
  · rw [if_pos he] at h
    simp at h
  · rw [if_neg he] at h
    cases hl : selLoop entries oracle fuel 0 (initSt entries) with
    | resolved nm vv =>
      rw [hl] at h
      simp only [] at h
      obtain ⟨rfl, rfl⟩ : nm = name ∧ vv = v := by
        have hinj := SOutcome.resolved.inj h
        exact ⟨hinj.1, hinj.2⟩
      exact selLoop_resolved_prov entries oracle fuel 0 (initSt entries) nm vv
        (initSt_inv entries) hl
    | rejected f => rw [hl] at h; simp at h
    | argumentError => rw [hl] at h; simp at h
    | pending => rw [hl] at h; simp at h
    | stuck => rw [hl] at h; simp at h

/-- Witness for `select_resolution_provenance`: `select({p: Promise.resolve(5)})`
resolves with `{type: 'p', value: 5}`, and `5` is indeed the resolution of
the operation named `p`. -/
theorem select_resolution_provenance_witness :
    (selectRun entriesP (fun _ => 0) 1).outcome = .resolved "p" 5 ∧
      ∃ op, ("p", some op) ∈ entriesP ∧ OpCanYield op 5 :=
  ⟨by decide,
    select_resolution_provenance entriesP (fun _ => 0) 1 "p" 5 (by decide)⟩

/-- No promise is armed when every entry is null. -/
theorem initPromises_nil {V E : Type} :
    ∀ (l : List (String × Option (MOp V E))) (i : ℕ),
      (∀ p ∈ l, p.2 = none) → initPromises l i = [] := by
  intro l
  induction l with
  | nil => intro i _; rfl
  | cons e rest ih =>
    intro i hall
    obtain ⟨name, op⟩ := e
    have h1 : op = none := hall (name, op) (List.mem_cons_self _ _)
    subst h1
    rw [initPromises]
    exact ih (i + 1) fun p hp => hall p (List.mem_cons_of_mem _ hp)

/-- C6. For every operations map in which every entry is the absent
marker `null` — the empty map included — `select` fails with the
ArgumentError of select.ts lines 180-184 (the `throw` happens in the
synchronous prologue of the `async` function, i.e. on the next microtask)
and no wait is armed before the failure: the `promises` array is empty.
The thrown error is the `Error` of line 181, the spec's conceptual
ArgumentError kind. -/
theorem select_all_null_rejects {V E : Type}
    (entries : List (String × Option (MOp V E)))
    (hnull : ∀ p ∈ entries, p.2 = none) (oracle : ℕ → ℕ) (fuel : ℕ) :
    selectRun entries oracle fuel = ⟨.argumentError, false⟩ ∧
      initPromises entries 0 = [] := by
  have h0 := initPromises_nil entries 0 hnull
  refine ⟨?_, h0⟩
  simp [selectRun, initSt, h0]

/-- Witness for `select_all_null_rejects`:
`select({a: null, b: null, c: null})` rejects with the ArgumentError and
arms nothing. -/
theorem select_all_null_rejects_witness :
    (∀ p ∈ entriesAllNull, p.2 = none) ∧
      selectRun entriesAllNull (fun _ => 0) 1 = ⟨.argumentError, false⟩ :=
  ⟨by decide,
    (select_all_null_rejects entriesAllNull (by decide) (fun _ => 0) 1).1⟩

/-- Counterexample to C3 as stated: on the synchronous-throw exit of
`select` — here `select({})`, which throws the ArgumentError — the
coordinator's abort signal is NOT aborted, because the `throw` of
select.ts line 181 happens before the `try`/`finally` of lines 186-224 is
entered.  The claim asserts the signal is aborted on every exit including
the synchronous throw; this exit surfaces with the signal still
unaborted. -/
theorem select_sync_throw_skips_abort :
    selectRun ([] : List (String × Option (MOp ℕ ℕ))) (fun _ => 0) 1 =
        ⟨SOutcome.argumentError, false⟩ ∧
      (selectRun ([] : List (String × Option (MOp ℕ ℕ))) (fun _ => 0) 1).abortedAtExit
        = false := by
  constructor
  · rfl
  · rfl

/-- C3 (amended). On every exit of `select` through the race loop —
resolution with a winner or rejection with a failure — the coordinator's
abort signal is aborted by the `finally` of select.ts lines 222-224 before
the result or error surfaces to the caller; the synchronous ArgumentError
throw for a map with no non-null operation (where no wait was started)
exits before the `try`/`finally` and does not abort the signal. -/
theorem select_loop_exit_aborts {V E : Type}
    (entries : List (String × Option (MOp V E))) (oracle : ℕ → ℕ) (fuel : ℕ)
    (h : isLoopExit (selectRun entries oracle fuel).outcome = true) :
    (selectRun entries oracle fuel).abortedAtExit = true := by
  simp only [selectRun] at h ⊢
  by_cases he : (initSt entries).promises.isEmpty
  · rw [if_pos he] at h
    simp [isLoopExit] at h
  · rw [if_neg he] at h ⊢
    cases hl : selLoop entries oracle fuel 0 (initSt entries) with
    | resolved nm vv => rfl
    | rejected f => rfl
    | argumentError => rw [hl] at h; simp [isLoopExit] at h
    | pending => rw [hl] at h; simp [isLoopExit] at h
    | stuck => rw [hl] at h; simp [isLoopExit] at h

/-- Witness for `select_loop_exit_aborts`: `select({p: Promise.resolve(5)})`
exits through the loop (it resolves) and the signal is aborted at exit. -/
theorem select_loop_exit_aborts_witness :
    isLoopExit (selectRun entriesP (fun _ => 0) 1).outcome = true ∧
      (selectRun entriesP (fun _ => 0) 1).abortedAtExit = true :=
  ⟨by decide, select_loop_exit_aborts entriesP (fun _ => 0) 1 (by decide)⟩

/-- C1 (code bug). On the input `select({a: null, ch: <selectable>})` with
shuffled order `[a, ch]`, the Selectable is armed as the single element of
`promises` but its token carries `index = 1`, its position in `nameAndOp`
(the `forEach` of select.ts lines 171-178 skips the null entry when
pushing but still counts it in `index`).  When its readiness is stolen
(`attempt` returns `{ok: false}`), line 219 writes the re-armed wait at
`promises[1]`: the settled winning promise stays in the raced set at slot
`0` and the new wait is appended behind it, instead of replacing it.  The
next `Promise.race` finds the stale settled promise first and re-runs
`attempt` immediately, re-arming again — each iteration consuming another
`attempt`/`wait` and leaving the settled promise in place. -/
theorem select_rearm_wrong_slot_with_null :
    (initSt entriesC1).promises = [Pend.will (Except.ok (Tok.selTok "ch" 1))] ∧
      selStep entriesC1 (initSt entriesC1) 0 =
        .next ⟨[Pend.will (Except.ok (Tok.selTok "ch" 1)),
                Pend.will (Except.ok (Tok.selTok "ch" 1))], [0, 2], [0, 1]⟩ ∧
      selStep entriesC1
          ⟨[Pend.will (Except.ok (Tok.selTok "ch" 1)),
            Pend.will (Except.ok (Tok.selTok "ch" 1))], [0, 2], [0, 1]⟩ 0 =
        .next ⟨[Pend.will (Except.ok (Tok.selTok "ch" 1)), Pend.never],
               [0, 3], [0, 2]⟩ := by
  refine ⟨rfl, rfl, rfl⟩

/-- C2 (code bug). On the input `select({ch: <selectable>})` whose
readiness is stolen once and whose re-armed wait then rejects with the
error `7`, `select` rejects with the raw error `7`, not with
`SelectError('ch', 7)`: the re-armed wait created on select.ts line 219
has no `.catch` wrapping its rejection, unlike the initial arming of lines
276-282.  The second conjunct states the surfaced result differs from the
SelectError-wrapped rejection the claim requires, for every `argName`. -/
theorem select_rearmed_wait_rejection_unwrapped :
    selectRun entriesC2 (fun _ => 0) 2 = ⟨.rejected (.raw 7), true⟩ ∧
      ∀ nm : String,
        selectRun entriesC2 (fun _ => 0) 2 ≠ ⟨.rejected (.wrapped nm 7), true⟩ := by
  constructor
  · rfl
  · intro nm h
    have h0 : selectRun entriesC2 (fun _ => 0) 2 = ⟨.rejected (.raw 7), true⟩ := rfl
    rw [h0] at h
    simp at h

/-- C7. Every operation form accepted by `select` is adapted by
`waitForOp` through the same number of promise continuations — exactly
one — before its readiness is observed by `Promise.race`: whenever two
operations' own promises are settled at the same tick, the race observes
their adapted pipelines at the same tick, so no form systematically wins
over another. -/
theorem waitForOp_pipeline_parity {V E : Type} (op₁ op₂ : MOp V E) (t : ℕ) :
    settleTick (waitForOpChain op₁ t) = t + 1 ∧
      settleTick (waitForOpChain op₁ t) = settleTick (waitForOpChain op₂ t) := by
  cases op₁ <;> cases op₂ <;> exact ⟨rfl, rfl⟩

/-- C8. Round-trip law: on every channel of capacity at least 1 and every
value `v` of the element domain, `write(v)` on the empty open channel
resolves immediately by storing `v` in the buffer, and the following
`read()` returns exactly `v`. -/
theorem channel_write_read_roundtrip {T : Type} (cap : ℕ) (hcap : 1 ≤ cap) (v : T) :
    (writeStep (newChan T cap) v).1 = .storedInBuffer ∧
      (readStep (writeStep (newChan T cap) v).2).1 = .value v := by
  have hc : 0 < cap := hcap
  constructor
  · simp [writeStep, newChan, hc]
  · simp [writeStep, readStep, admitWriter, newChan, hc]

/-- Witness for `channel_write_read_roundtrip` at capacity 1 and value 42. -/
theorem channel_write_read_roundtrip_witness :
    1 ≤ 1 ∧ (writeStep (newChan ℕ 1) 42).1 = .storedInBuffer ∧
      (readStep (writeStep (newChan ℕ 1) 42).2).1 = .value 42 :=
  ⟨le_refl 1, channel_write_read_roundtrip 1 (le_refl 1) 42⟩

/-- C9. For every duration, value and abort time strictly before the
timeout: `sleep` rejects with the Aborted error kind, its teardown clears
the pending timer, and the timer callback never fires — so the sleep
never resolves after cancellation (the settlement is the Aborted
rejection, never the value). -/
theorem sleep_abort_clears_timer {V : Type} (ms : ℕ) (value : V) (t : ℕ)
    (h : t < ms) :
    (runSleep ms value (some t)).settled = some SleepResult.abortedError ∧
      (runSleep ms value (some t)).timerFired = false ∧
      (runSleep ms value (some t)).timerPending = false := by
  cases t with
  | zero => exact ⟨rfl, rfl, rfl⟩
  | succ t =>
    simp [runSleep, sleepEvents, if_pos h, sleepStep]

/-- Witness for `sleep_abort_clears_timer`: `sleep(5)` aborted at time 2. -/
theorem sleep_abort_clears_timer_witness :
    (2 : ℕ) < 5 ∧
      (runSleep 5 (0 : ℕ) (some 2)).settled = some SleepResult.abortedError ∧
      (runSleep 5 (0 : ℕ) (some 2)).timerFired = false :=
  ⟨by decide,
    (sleep_abort_clears_timer 5 0 2 (by decide)).1,
    (sleep_abort_clears_timer 5 0 2 (by decide)).2.1⟩
